import Mathlib

/-!
Verification development for the dependency-resolution and vulnerability-tree
analysis engine of the npmx.dev package-registry exploration site.

The repository ships the unit tests and the type declarations of this engine
(`test/unit/server/dependency-resolver.spec.ts`, `test/unit/shared/severity.spec.ts`,
`shared/types/osv.ts`); the engine implementation itself
(`server/utils/dependency-resolver.ts`, `shared/utils/severity.ts`) is not part
of the sources at hand, so every operational definition below is modelled from
the specification (sections 3 to 4.5), with the shipped unit tests used to pin
the concrete behaviour wherever the specification defers to them.

All definitions are executable: parsing works on `List Char` (structural
recursion that the kernel can evaluate), version precedence is encoded as a
lexicographic key in a Mathlib linear order, and the graph walker runs on an
explicit fuel that is proved sufficient.
-/

namespace Npmx

/-! ### Generic list helpers (structural, kernel-computable) -/

/-- Split a character list at every occurrence of `sep` (the separators are
dropped; `n` separators yield `n+1` segments, possibly empty). -/
def splitOnChar (sep : Char) : List Char → List (List Char)
  | [] => [[]]
  | c :: cs =>
    let r := splitOnChar sep cs
    if c = sep then [] :: r
    else
      match r with
      | [] => [[c]]
      | seg :: segs => (c :: seg) :: segs

/-- Split a list at the last occurrence of `sep`, returning the parts before
and after it; `none` when `sep` does not occur. -/
def lastSplit (sep : Char) : List Char → Option (List Char × List Char)
  | [] => none
  | c :: cs =>
    match lastSplit sep cs with
    | some (pre, post) => some (c :: pre, post)
    | none => if c = sep then some ([], cs) else none

/-- Decimal value of a digit list (assumes digits). -/
def natOfDigits : List Char → Nat
  | [] => 0
  | l => l.foldl (fun n c => n * 10 + (c.toNat - 48)) 0

/-! ### Semantic versions (data model of the spec, section 3 and 4.2) -/

/-- A prerelease identifier: numeric identifiers compare by value and are
lower than alphanumeric identifiers, which compare in ASCII order. -/
inductive PreId where
  | num (n : Nat)
  | str (s : List Char)
deriving DecidableEq, Repr

/-- A parsed semantic version `major.minor.patch[-prerelease]`.
Modelled from the spec: "numeric dot-separated triple, then prerelease
identifiers compared per the semantic-versioning prerelease rule". An empty
`pre` means a stable version. -/
structure SemVer where
  major : Nat
  minor : Nat
  patch : Nat
  pre : List PreId
deriving DecidableEq, Repr

/-- Characters that may occur in a semantic version string. -/
def validSemverChar (c : Char) : Bool :=
  c.isAlphanum || c = '.' || c = '-'

/-- Parse a nonempty all-digit segment with no leading zero. -/
def parseNum (l : List Char) : Option Nat :=
  match l with
  | [] => none
  | c :: cs =>
    if (c :: cs).all Char.isDigit then
      if c = '0' ∧ cs ≠ [] then none else some (natOfDigits (c :: cs))
    else none

/-- Parse one prerelease identifier: all-digit segments are numeric (leading
zeros rejected), any other nonempty segment is alphanumeric. -/
def parsePreId (l : List Char) : Option PreId :=
  match l with
  | [] => none
  | c :: cs =>
    if (c :: cs).all Char.isDigit then
      if c = '0' ∧ cs ≠ [] then none else some (.num (natOfDigits (c :: cs)))
    else some (.str (c :: cs))

/-- Parse the dot-separated prerelease part. -/
def parsePre (l : List Char) : Option (List PreId) :=
  (splitOnChar '.' l).mapM parsePreId

/-- Modelled from the spec: parser for a concrete semantic version
`major.minor.patch` optionally followed by `-prerelease`; the implementation
file `server/utils/dependency-resolver.ts` that hosts it is not in the
sources, so the shape follows the semantic-versioning grammar the spec
appeals to. Returns `none` on anything that is not a plain version. -/
def parseSemver (l : List Char) : Option SemVer :=
  if l.all validSemverChar then
    let core := l.takeWhile (fun c => c ≠ '-')
    match splitOnChar '.' core with
    | [a, b, c] =>
      match parseNum a, parseNum b, parseNum c with
      | some x, some y, some z =>
        match l.dropWhile (fun c => c ≠ '-') with
        | [] => some ⟨x, y, z, []⟩
        | _ :: preChars =>
          match parsePre preChars with
          | some ids => some ⟨x, y, z, ids⟩
          | none => none
      | _, _, _ => none
    | _ => none
  else none

/-! ### Version precedence as a lexicographic key -/

/-- Order key of one prerelease identifier: numeric identifiers (`false`
component) come before alphanumeric ones (`true`), numerics compare by value,
alphanumerics by ASCII order. -/
abbrev PreKey := Lex (Bool × Lex (Nat × List Char))

/-- Order key of a whole version: the numeric triple lexicographically, then
stability (`true` = no prerelease, which outranks every prerelease), then the
prerelease identifier list lexicographically. -/
abbrev VerKey := Lex (Nat × Lex (Nat × Lex (Nat × Lex (Bool × List PreKey))))

def preIdKey : PreId → PreKey
  | .num n => toLex (false, toLex (n, []))
  | .str s => toLex (true, toLex (0, s))

/-- Standard semantic-version precedence, encoded so that `≤` on `VerKey` is
the spec's precedence order (Mathlib's lexicographic linear orders). -/
def semverKey (v : SemVer) : VerKey :=
  toLex (v.major, toLex (v.minor, toLex (v.patch, toLex (v.pre.isEmpty, v.pre.map preIdKey))))

/-- Key of a version string; unparseable strings are never compared (the
resolver filters them out first). -/
def strKey (s : String) : VerKey :=
  match parseSemver s.data with
  | some v => semverKey v
  | none => semverKey ⟨0, 0, 0, []⟩

/-! ### Semantic-version ranges (spec section 4.2, rule 4) -/

/-- Comparator operators of a desugared range. -/
inductive COp where
  | eqc | gec | gtc | lec | ltc
deriving DecidableEq, Repr

/-- One comparator of a desugared range. -/
structure Comparator where
  op : COp
  ver : SemVer
deriving DecidableEq, Repr

/-- Upper bound of a caret range: next major, or next minor / patch for 0.x. -/
def caretUpper (v : SemVer) : SemVer :=
  if v.major > 0 then ⟨v.major + 1, 0, 0, []⟩
  else if v.minor > 0 then ⟨0, v.minor + 1, 0, []⟩
  else ⟨0, 0, v.patch + 1, []⟩

def caretComps (v : SemVer) : List Comparator :=
  [⟨.gec, v⟩, ⟨.ltc, caretUpper v⟩]

def tildeComps (v : SemVer) : List Comparator :=
  [⟨.gec, v⟩, ⟨.ltc, ⟨v.major, v.minor + 1, 0, []⟩⟩]

/-- Modelled from the spec: desugaring of a range specifier (`*`, caret,
tilde, primitive comparators, or a plain version meaning equality) into its
comparator list, mirroring the standard node-semver grammar that the missing
`server/utils/dependency-resolver.ts` delegates to. `none` when the string is
not a version range. -/
def parseRange (l : List Char) : Option (List Comparator) :=
  if l = ['*'] then some [⟨.gec, ⟨0, 0, 0, []⟩⟩]
  else if l.head? = some '^' then (parseSemver l.tail).map caretComps
  else if l.head? = some '~' then (parseSemver l.tail).map tildeComps
  else if l.take 2 = ['>', '='] then (parseSemver (l.drop 2)).map (fun v => [⟨.gec, v⟩])
  else if l.take 2 = ['<', '='] then (parseSemver (l.drop 2)).map (fun v => [⟨.lec, v⟩])
  else if l.head? = some '>' then (parseSemver l.tail).map (fun v => [⟨.gtc, v⟩])
  else if l.head? = some '<' then (parseSemver l.tail).map (fun v => [⟨.ltc, v⟩])
  else if l.head? = some '=' then (parseSemver l.tail).map (fun v => [⟨.eqc, v⟩])
  else (parseSemver l).map (fun v => [⟨.eqc, v⟩])

/-- Does version `v` meet one comparator, under standard precedence? -/
def cmpHolds (op : COp) (cv v : SemVer) : Bool :=
  match op with
  | .eqc => decide (v = cv)
  | .gec => decide (semverKey cv ≤ semverKey v)
  | .gtc => decide (semverKey cv < semverKey v)
  | .lec => decide (semverKey v ≤ semverKey cv)
  | .ltc => decide (semverKey v < semverKey cv)

def sameTuple (a b : SemVer) : Bool :=
  decide (a.major = b.major ∧ a.minor = b.minor ∧ a.patch = b.patch)

/-- Modelled from the spec: range satisfaction with the semantic-versioning
prerelease rule the spec's design notes defer to — a prerelease version
satisfies the range only if, besides meeting every comparator, some
comparator names a prerelease on the same `major.minor.patch` tuple. -/
def satisfiesRange (cs : List Comparator) (v : SemVer) : Bool :=
  cs.all (fun c => cmpHolds c.op c.ver v) &&
  (v.pre.isEmpty || cs.any (fun c => !c.ver.pre.isEmpty && sameTuple c.ver v))

/-- Does the version string `s` satisfy the desugared range? -/
def satStr (cs : List Comparator) (s : String) : Bool :=
  match parseSemver s.data with
  | some v => satisfiesRange cs v
  | none => false

/-- Maximum of a list of version strings under precedence (later entries win
ties); `none` on the empty list. -/
def pickMax : List String → Option String
  | [] => none
  | v :: vs =>
    match pickMax vs with
    | none => some v
    | some m => if strKey m ≤ strKey v then some v else some m

/-! ### The version resolver (spec section 4.2) -/

/-- Does `p` occur as a contiguous run inside `l`? -/
def hasSub (p : List Char) : List Char → Bool
  | [] => p.isEmpty
  | c :: cs => p.isPrefixOf (c :: cs) || hasSub p cs

/-- Modelled from the spec, rule 1: range specifiers that denote a URL source
(`http://`, `https://`, `git://`, `git+…://`). -/
def looksLikeUrl (l : List Char) : Bool :=
  "http://".data.isPrefixOf l || "https://".data.isPrefixOf l ||
  "git://".data.isPrefixOf l ||
  ("git+".data.isPrefixOf l && hasSub "://".data l)

/-- Modelled from the spec, rule 2: given the text after `npm:`, extract the
trailing version spec of an alias `npm:<name>@<spec>` /
`npm:@scope/<name>@<spec>`; both the name and the trailing spec must be
nonempty. `none` on malformed aliases. -/
def aliasSpec (rest : List Char) : Option (List Char) :=
  match rest with
  | [] => none
  | c :: rem =>
    match lastSplit '@' (if c = '@' then rem else c :: rem) with
    | some (name, tail) => if name ≠ [] ∧ tail ≠ [] then some tail else none
    | none => none

/-- Rules 3–5 of the resolver: exact-match short-circuit, then range
evaluation picking the precedence-maximal satisfying version, else `none`. -/
def resolveCore (s : String) (versions : List String) : Option String :=
  if s ∈ versions then some s
  else
    match parseRange s.data with
    | none => none
    | some cs => pickMax (versions.filter (fun v => satStr cs v))

/-- Modelled from the spec (section 4.2, `server/utils/dependency-resolver.ts`
is not in the sources): decision order is URL/`file:` rejection, `npm:` alias
extraction (before the `owner/repo` test, as the shipped unit tests require
`npm:@scope/pkg@2.0.0` to resolve), GitHub-shorthand rejection, then the
exact-match and range rules of `resolveCore`. -/
def resolveVersion (s : String) (versions : List String) : Option String :=
  let l := s.data
  if looksLikeUrl l || "file:".data.isPrefixOf l then none
  else if "npm:".data.isPrefixOf l then
    match aliasSpec (l.drop 4) with
    | some tail => resolveCore (String.mk tail) versions
    | none => none
  else if l.contains '/' && !("@".data.isPrefixOf l) then none
  else resolveCore s versions

/-- The version list used throughout the shipped resolver unit tests. -/
def demoVersions : List String :=
  ["1.0.0", "1.0.1", "1.1.0", "2.0.0", "2.0.0-beta.1", "3.0.0"]

example : parseSemver "1.0.0".data = some ⟨1, 0, 0, []⟩ := by decide
example : parseSemver "2.0.0-beta.1".data = some ⟨2, 0, 0, [.str ['b','e','t','a'], .num 1]⟩ := by
  decide
example : resolveVersion "1.0.0" demoVersions = some "1.0.0" := by decide
example : resolveVersion "1.0.2" demoVersions = none := by decide
example : resolveVersion "^1.0.0" demoVersions = some "1.1.0" := by decide
example : resolveVersion "~1.0.0" demoVersions = some "1.0.1" := by decide
example : resolveVersion ">=2.0.0" demoVersions = some "3.0.0" := by decide
example : resolveVersion "<2.0.0" demoVersions = some "1.1.0" := by decide
example : resolveVersion "*" demoVersions = some "3.0.0" := by decide
example : resolveVersion "npm:other-pkg@^1.0.0" demoVersions = some "1.1.0" := by decide
example : resolveVersion "npm:@scope/pkg@2.0.0" demoVersions = some "2.0.0" := by decide
example : resolveVersion "npm:" demoVersions = none := by decide
example : resolveVersion "npm:pkg" demoVersions = none := by decide
example : resolveVersion "https://github.com/user/repo" demoVersions = none := by decide
example : resolveVersion "http://example.com/pkg.tgz" demoVersions = none := by decide
example : resolveVersion "git://github.com/user/repo.git" demoVersions = none := by decide
example : resolveVersion "git+https://github.com/user/repo.git" demoVersions = none := by decide
example : resolveVersion "file:../local-pkg" demoVersions = none := by decide
example : resolveVersion "user/repo" demoVersions = none := by decide
example : resolveVersion "user/repo#branch" demoVersions = none := by decide
example : resolveVersion "2.0.0-beta.1" demoVersions = some "2.0.0-beta.1" := by decide
example : resolveVersion "^2.0.0-beta.0" demoVersions = some "2.0.0" := by decide

/-! ### Platform matcher (spec section 4.1, tests in `dependency-resolver.spec.ts`) -/

/-- The fixed runtime platform triple (spec section 3, `TargetPlatform`). -/
structure TargetPlatform where
  os : String
  cpu : String
  libc : String
deriving DecidableEq, Repr

/-- One published version's manifest (spec section 3, `VersionManifest`):
its dependency edges `name ↦ rangeSpec` and the three platform-constraint
arrays, where an absent array is modelled as the empty list (the spec treats
absent and empty alike). -/
structure VersionManifest where
  deps : List (String × String)
  osA : List String
  cpuA : List String
  libcA : List String
deriving DecidableEq, Repr

/-- Modelled from the spec: the process-wide target platform; the shipped
test `TARGET_PLATFORM is configured for linux-x64-glibc` pins its value. -/
def TARGET_PLATFORM : TargetPlatform := ⟨"linux", "x64", "glibc"⟩

/-- Modelled from the spec, section 4.1: one axis is satisfied iff the array
is empty, or (no plain inclusion token is present or the target value is one
of them) and the target value is not one of the `!`-stripped exclusions. -/
def axisMatches (arr : List String) (value : String) : Bool :=
  if arr.isEmpty then true
  else
    let incl := arr.filter (fun t => !("!".data.isPrefixOf t.data))
    let excl := (arr.filter (fun t => "!".data.isPrefixOf t.data)).map
      (fun t => String.mk (t.data.drop 1))
    (incl.isEmpty || incl.contains value) && !(excl.contains value)

/-- Modelled from the spec: the two-argument platform predicate of section
4.1, the conjunction of the three axis checks. -/
def matchesPlatformFor (m : VersionManifest) (t : TargetPlatform) : Bool :=
  axisMatches m.osA t.os && axisMatches m.cpuA t.cpu && axisMatches m.libcA t.libc

/-- Modelled from the spec: the program's `matchesPlatform` takes only the
manifest (as every call in the shipped unit tests shows) and always evaluates
against the process-wide `TARGET_PLATFORM`. -/
def matchesPlatform (m : VersionManifest) : Bool :=
  matchesPlatformFor m TARGET_PLATFORM

def emptyManifest : VersionManifest := ⟨[], [], [], []⟩

example : matchesPlatform emptyManifest = true := by decide
example : matchesPlatform { emptyManifest with osA := ["linux", "darwin"] } = true := by decide
example : matchesPlatform { emptyManifest with osA := ["darwin", "win32"] } = false := by decide
example : matchesPlatform { emptyManifest with osA := ["!win32"] } = true := by decide
example : matchesPlatform { emptyManifest with osA := ["!linux"] } = false := by decide
example : matchesPlatform { emptyManifest with cpuA := ["x64", "arm64"] } = true := by decide
example : matchesPlatform { emptyManifest with cpuA := ["arm64", "arm"] } = false := by decide
example : matchesPlatform { emptyManifest with cpuA := ["!arm64"] } = true := by decide
example : matchesPlatform { emptyManifest with cpuA := ["!x64"] } = false := by decide
example : matchesPlatform { emptyManifest with libcA := ["glibc"] } = true := by decide
example : matchesPlatform { emptyManifest with libcA := ["musl"] } = false := by decide
example : matchesPlatform { emptyManifest with libcA := ["!musl"] } = true := by decide
example : matchesPlatform { emptyManifest with libcA := ["!glibc"] } = false := by decide
example : matchesPlatform { emptyManifest with osA := ["linux"], cpuA := ["arm64"] } = false := by
  decide

/-! ### Severity aggregation (spec section 4.5, `shared/types/osv.ts`) -/

/-- Severity levels of `shared/types/osv.ts` (`SEVERITY_LEVELS` plus the
`unknown` member of `OsvSeverityLevel`). -/
inductive Severity where
  | critical | high | moderate | low | unknown
deriving DecidableEq, Repr

/-- `SeverityCounts` of `shared/types/osv.ts`: counts by severity level; a
key missing in the JavaScript object is the field being `0` here. -/
structure SeverityCounts where
  critical : Nat := 0
  high : Nat := 0
  moderate : Nat := 0
  low : Nat := 0
deriving DecidableEq, Repr

/-- Modelled from the spec, section 4.5: the highest-ranked severity with a
strictly positive count, in the fixed order critical > high > moderate > low,
and `unknown` when every count is zero. -/
def getHighestSeverity (c : SeverityCounts) : Severity :=
  if c.critical > 0 then .critical
  else if c.high > 0 then .high
  else if c.moderate > 0 then .moderate
  else if c.low > 0 then .low
  else .unknown

example : getHighestSeverity ⟨1, 0, 0, 0⟩ = .critical := by decide
example : getHighestSeverity ⟨0, 2, 1, 0⟩ = .high := by decide
example : getHighestSeverity ⟨0, 0, 3, 1⟩ = .moderate := by decide
example : getHighestSeverity ⟨0, 0, 0, 5⟩ = .low := by decide
example : getHighestSeverity ⟨0, 0, 0, 0⟩ = .unknown := by decide
example : getHighestSeverity {} = .unknown := by decide
example : getHighestSeverity ⟨1, 10, 20, 30⟩ = .critical := by decide
example : getHighestSeverity { high := 1 } = .high := by decide

/-! ### Dependency-graph walker (spec section 4.3) -/

/-- Identity of a graph node: package name and resolved version. -/
abbrev Ident := String × String

/-- Depth classification of `shared/types/osv.ts` (`DependencyDepth`). -/
inductive DependencyDepth where
  | root | direct | transitive
deriving DecidableEq, Repr

/-- A resolved dependency node (spec section 3, `DependencyNode`): identity,
depth class and the first-discovered path of `name@version` strings from the
root down to (excluding) the node itself. -/
structure DepNode where
  name : String
  version : String
  depth : DependencyDepth
  path : List String
deriving DecidableEq, Repr

def identOf (n : DepNode) : Ident := (n.name, n.version)

/-- The package-metadata source (spec section 6, collaborator A), finite:
each package name maps to its published versions, each with a manifest.
A name absent from the list is a metadata-fetch failure for that package. -/
structure Registry where
  packages : List (String × List (String × VersionManifest))
deriving Repr

/-- All published versions of a package, `none` when the fetch fails. -/
def lookupVersions (reg : Registry) (name : String) :
    Option (List (String × VersionManifest)) :=
  (reg.packages.find? (fun p => p.1 = name)).map Prod.snd

/-- The manifest of one published version, `none` when the fetch fails. -/
def lookupManifest (reg : Registry) (name version : String) : Option VersionManifest :=
  match lookupVersions reg name with
  | none => none
  | some vl => (vl.find? (fun p => p.1 = version)).map Prod.snd

/-- Every identity the registry can ever hand out. -/
def identsOf (reg : Registry) : List Ident :=
  (reg.packages.map (fun p => p.2.map (fun v => (p.1, v.1)))).flatten

def childDepth : DependencyDepth → DependencyDepth
  | .root => .direct
  | _ => .transitive

/-- Modelled from the spec, section 4.3 steps a–d: expand the dependency
edges of `parent`. Each edge fetches the child's published versions (a failed
fetch drops the edge), resolves the range (`none` drops the edge), fetches
the resolved manifest, applies the platform matcher, and finally admits the
child only when its identity is still in `remaining` (the undiscovered part
of the registry — this is the visited-set check, first discovery wins).
Returns the newly discovered nodes in edge order and the shrunken
`remaining`. -/
def expandDeps (reg : Registry) (parent : DepNode) :
    List (String × String) → List Ident → List DepNode × List Ident
  | [], remaining => ([], remaining)
  | (dn, spec) :: rest, remaining =>
    match lookupVersions reg dn with
    | none => expandDeps reg parent rest remaining
    | some vl =>
      match resolveVersion spec (vl.map Prod.fst) with
      | none => expandDeps reg parent rest remaining
      | some ver =>
        match lookupManifest reg dn ver with
        | none => expandDeps reg parent rest remaining
        | some m =>
          if matchesPlatform m then
            if (dn, ver) ∈ remaining then
              let child : DepNode :=
                ⟨dn, ver, childDepth parent.depth,
                  parent.path ++ [parent.name ++ "@" ++ parent.version]⟩
              let r := expandDeps reg parent rest (remaining.erase (dn, ver))
              (child :: r.1, r.2)
            else expandDeps reg parent rest remaining
          else expandDeps reg parent rest remaining

/-- Modelled from the spec, section 4.3: the work-queue traversal. `fuel` is
a structural bound; every step removes one queue entry and enqueues exactly
as many nodes as it removes from `remaining`, so `queue.length +
remaining.length` falls by one per step and the initial fuel
`1 + remaining.length` used by `resolveTree` is proved sufficient
(`walk_fuel_stable`). Discovered nodes are appended to `acc` in discovery
order. -/
def walk (reg : Registry) : Nat → List DepNode → List Ident → List DepNode → List DepNode
  | 0, _, _, acc => acc
  | _ + 1, [], _, acc => acc
  | fuel + 1, node :: queue, remaining, acc =>
    match lookupManifest reg node.name node.version with
    | none => walk reg fuel queue remaining acc
    | some m =>
      let r := expandDeps reg node m.deps remaining
      walk reg fuel (queue ++ r.1) r.2 (acc ++ r.1)

/-- Modelled from the spec, section 4.3: resolve the whole tree. A root
whose manifest cannot be fetched is fatal (`none`, spec section 7); otherwise
the traversal starts from the root node with the registry's deduplicated
identity set (minus the root) as the undiscovered pool. -/
def resolveTree (reg : Registry) (rootName rootVersion : String) : Option (List DepNode) :=
  match lookupManifest reg rootName rootVersion with
  | none => none
  | some _ =>
    let rootNode : DepNode := ⟨rootName, rootVersion, .root, []⟩
    let remaining := ((identsOf reg).dedup).erase (rootName, rootVersion)
    some (walk reg (1 + remaining.length) [rootNode] remaining [rootNode])

/-- A cyclic two-package registry: a depends on b, b depends on a. -/
def cycReg : Registry :=
  ⟨[("a", [("1.0.0", { emptyManifest with deps := [("b", "^1.0.0")] })]),
    ("b", [("1.0.0", { emptyManifest with deps := [("a", "^1.0.0")] })])]⟩

example :
    resolveTree cycReg "a" "1.0.0" =
      some [⟨"a", "1.0.0", .root, []⟩, ⟨"b", "1.0.0", .direct, ["a@1.0.0"]⟩] := by decide

/-- A diamond registry: r depends on a and b, both of which depend on c. -/
def diamondReg : Registry :=
  ⟨[("r", [("1.0.0", { emptyManifest with deps := [("a", "^1.0.0"), ("b", "^1.0.0")] })]),
    ("a", [("1.0.0", { emptyManifest with deps := [("c", "^1.0.0")] })]),
    ("b", [("1.0.0", { emptyManifest with deps := [("c", "^1.0.0")] })]),
    ("c", [("1.0.0", emptyManifest)])]⟩

example :
    resolveTree diamondReg "r" "1.0.0" =
      some [⟨"r", "1.0.0", .root, []⟩,
        ⟨"a", "1.0.0", .direct, ["r@1.0.0"]⟩,
        ⟨"b", "1.0.0", .direct, ["r@1.0.0"]⟩,
        ⟨"c", "1.0.0", .transitive, ["r@1.0.0", "a@1.0.0"]⟩] := by decide

/-! ### Vulnerability querier and aggregator (spec sections 4.4 and 4.5) -/

/-- `VulnerabilitySummary` of `shared/types/osv.ts`. -/
structure VulnSummary where
  vid : String
  summary : String
  severity : Severity
  aliases : List String
  url : String
deriving DecidableEq, Repr

/-- The external vulnerability source (spec section 6, collaborator B) as a
pure behaviour: `none` is a failed lookup (network error, non-success
status, malformed response), `some vs` a successful one (possibly empty). -/
abbrev OsvSource := Ident → Option (List VulnSummary)

/-- Modelled from the spec, section 4.4: one isolated lookup per node; a
failure yields the empty list for that node and counts one failed query,
and never aborts the sibling lookups. Returns the per-node lists in node
order together with the failed-query count. -/
def queryVulnerabilities (osv : OsvSource) :
    List DepNode → List (DepNode × List VulnSummary) × Nat
  | [] => ([], 0)
  | n :: ns =>
    let r := queryVulnerabilities osv ns
    match osv (identOf n) with
    | none => ((n, []) :: r.1, r.2 + 1)
    | some vs => ((n, vs) :: r.1, r.2)

/-- Count a vulnerability list by severity level; `unknown` entries are in
none of the four buckets. -/
def countsOf (vs : List VulnSummary) : SeverityCounts :=
  ⟨(vs.filter (fun v => v.severity = .critical)).length,
    (vs.filter (fun v => v.severity = .high)).length,
    (vs.filter (fun v => v.severity = .moderate)).length,
    (vs.filter (fun v => v.severity = .low)).length⟩

def addCounts (a b : SeverityCounts) : SeverityCounts :=
  ⟨a.critical + b.critical, a.high + b.high, a.moderate + b.moderate, a.low + b.low⟩

def totalOf (c : SeverityCounts) : Nat :=
  c.critical + c.high + c.moderate + c.low

/-- Field-wise sum of every node's counts (spec section 4.5,
`aggregateCounts`). -/
def sumCounts (pairs : List (DepNode × List VulnSummary)) : SeverityCounts :=
  pairs.foldr (fun p acc => addCounts (countsOf p.2) acc) {}

/-- `PackageVulnerabilityInfo` of `shared/types/osv.ts`. -/
structure PackageVulnerabilityInfo where
  name : String
  version : String
  depth : DependencyDepth
  path : List String
  vulnerabilities : List VulnSummary
  counts : SeverityCounts
  countsTotal : Nat
deriving DecidableEq, Repr

/-- `VulnerabilityTreeResult` of `shared/types/osv.ts`. -/
structure VulnerabilityTreeResult where
  package : String
  version : String
  vulnerablePackages : List PackageVulnerabilityInfo
  totalPackages : Nat
  failedQueries : Nat
  totalCounts : SeverityCounts
  totalCountsTotal : Nat
deriving DecidableEq, Repr

/-- Modelled from the spec, sections 3 and 4.5: assemble the final result —
nodes with at least one vulnerability, the count of analyzed packages, the
failed-query counter and the tree-wide counts with their four-bucket total. -/
def buildResult (rootName rootVersion : String)
    (pairs : List (DepNode × List VulnSummary)) (failed : Nat) : VulnerabilityTreeResult :=
  let tc := sumCounts pairs
  ⟨rootName, rootVersion,
    (pairs.filter (fun p => !p.2.isEmpty)).map
      (fun p => ⟨p.1.name, p.1.version, p.1.depth, p.1.path, p.2,
        countsOf p.2, totalOf (countsOf p.2)⟩),
    pairs.length, failed, tc, totalOf tc⟩

/-- Modelled from the spec, sections 2 and 7: the whole analysis — resolve
the tree (fatal only when the root's metadata cannot be fetched), query the
vulnerability source per node, aggregate. -/
def analyzeTree (reg : Registry) (osv : OsvSource) (rootName rootVersion : String) :
    Option VulnerabilityTreeResult :=
  match resolveTree reg rootName rootVersion with
  | none => none
  | some nodes =>
    let q := queryVulnerabilities osv nodes
    some (buildResult rootName rootVersion q.1 q.2)

/-! ## Platform matcher: claim theorems -/

/-- Propositional reading of one platform axis (spec section 4.1): the array
is absent/empty, or (no inclusion token is present, or the target value is
among the inclusions) and the target value is not among the `!`-stripped
exclusions. -/
def AxisSatisfied (arr : List String) (v : String) : Prop :=
  arr = [] ∨
    ((arr.filter (fun t => !("!".data.isPrefixOf t.data)) = [] ∨
        v ∈ arr.filter (fun t => !("!".data.isPrefixOf t.data))) ∧
      v ∉ (arr.filter (fun t => "!".data.isPrefixOf t.data)).map
        (fun t => String.mk (t.data.drop 1)))

theorem axisMatches_iff (arr : List String) (v : String) :
    axisMatches arr v = true ↔ AxisSatisfied arr v := by
  unfold axisMatches AxisSatisfied
  by_cases h : arr = []
  · simp [h]
  · simp only [h, List.isEmpty_iff, if_neg h, or_false] at *
    simp [List.isEmpty_iff, List.elem_iff]

/-- C7: for every version manifest and target platform, the platform matcher
returns true iff, on each of the three axes independently, the manifest's
array is empty/absent, or the target's value passes the inclusion tokens
(vacuously when there are none) and avoids the `!`-stripped exclusion
tokens; the overall result is the conjunction over the three axes. The
matcher is a total Lean function, hence never throws. -/
theorem matchesPlatform_spec (m : VersionManifest) (t : TargetPlatform) :
    matchesPlatformFor m t = true ↔
      AxisSatisfied m.osA t.os ∧ AxisSatisfied m.cpuA t.cpu ∧ AxisSatisfied m.libcA t.libc := by
  unfold matchesPlatformFor
  simp [Bool.and_eq_true, axisMatches_iff, and_assoc]

/-- C10: the exported constant `TARGET_PLATFORM` is exactly
linux/x64/glibc, and the program's one-argument `matchesPlatform` always
evaluates against this fixed constant (so every platform check in the
program is performed for linux/x64/glibc). -/
theorem target_platform_fixed :
    TARGET_PLATFORM = ⟨"linux", "x64", "glibc"⟩ ∧
      ∀ m : VersionManifest, matchesPlatform m = matchesPlatformFor m TARGET_PLATFORM :=
  ⟨rfl, fun _ => rfl⟩

/-! ## Severity aggregator: claim theorem -/

/-- C8: `getHighestSeverity` returns the highest-ranked severity with a
strictly positive count in the fixed order critical > high > moderate > low
(fully characterized below), `unknown` exactly when every count is zero —
a missing key of the JavaScript input is a zero field here, never an error —
and on the shipped test inputs: `{critical:1, high:10, moderate:20, low:30}`
yields `critical` and `{}` yields `unknown`. -/
theorem getHighestSeverity_spec :
    (∀ c : SeverityCounts,
      (getHighestSeverity c = .critical ↔ 0 < c.critical) ∧
      (getHighestSeverity c = .high ↔ c.critical = 0 ∧ 0 < c.high) ∧
      (getHighestSeverity c = .moderate ↔ c.critical = 0 ∧ c.high = 0 ∧ 0 < c.moderate) ∧
      (getHighestSeverity c = .low ↔
        c.critical = 0 ∧ c.high = 0 ∧ c.moderate = 0 ∧ 0 < c.low) ∧
      (getHighestSeverity c = .unknown ↔
        c.critical = 0 ∧ c.high = 0 ∧ c.moderate = 0 ∧ c.low = 0)) ∧
    getHighestSeverity ⟨1, 10, 20, 30⟩ = .critical ∧
    getHighestSeverity {} = .unknown := by
  refine ⟨fun c => ?_, by decide, by decide⟩
  unfold getHighestSeverity
  split_ifs <;> simp_all <;> omega

/-! ## Version resolver: non-registry rejection (C4) -/

/-- C4: for every list of available versions, `resolveVersion` returns null
for every URL-scheme specifier (`http://`, `https://`, `git://`,
`git+…://`), every `file:`-prefixed specifier, and every GitHub shorthand —
a specifier containing `/` that is neither a scoped-package spec (leading
`@`) nor an `npm:` alias. -/
theorem resolveVersion_rejects_nonregistry (s : String) (versions : List String) :
    (looksLikeUrl s.data = true → resolveVersion s versions = none) ∧
    ("file:".data.isPrefixOf s.data = true → resolveVersion s versions = none) ∧
    (s.data.contains '/' = true → "@".data.isPrefixOf s.data = false →
      "npm:".data.isPrefixOf s.data = false → resolveVersion s versions = none) := by
  refine ⟨fun h => ?_, fun h => ?_, fun h1 h2 h3 => ?_⟩
  · simp [resolveVersion, h]
  · simp [resolveVersion, h]
  · by_cases hu : (looksLikeUrl s.data || "file:".data.isPrefixOf s.data) = true
    · simp [resolveVersion, hu]
    · simp only [Bool.or_eq_true, not_or] at hu
      simp [resolveVersion, hu.1, hu.2, h1, h2, h3]
      intro hmem
      rw [List.contains_iff_exists_mem_beq] at h1
      obtain ⟨a, ha, hb⟩ := h1
      exact absurd (by simpa using (eq_of_beq hb) ▸ ha) hmem

/-- Closed witness for C4 at the shipped test inputs. -/
theorem resolveVersion_rejects_nonregistry_witness :
    resolveVersion "git+https://github.com/user/repo.git" demoVersions = none ∧
    resolveVersion "file:../local-pkg" demoVersions = none ∧
    resolveVersion "user/repo" demoVersions = none :=
  ⟨(resolveVersion_rejects_nonregistry "git+https://github.com/user/repo.git" demoVersions).1
      (by decide),
    (resolveVersion_rejects_nonregistry "file:../local-pkg" demoVersions).2.1 (by decide),
    (resolveVersion_rejects_nonregistry "user/repo" demoVersions).2.2
      (by decide) (by decide) (by decide)⟩

/-! ## Vulnerability querier: failure isolation (C3) -/

/-- C3: for every node set and every behaviour of the external vulnerability
source, the querier pairs every node with its lookup result — the empty list
exactly on failure, so no failure aborts a sibling lookup or the analysis —
`failedQueries` is exactly the number of nodes whose lookup failed, failed
nodes carry the zero `SeverityCounts`, and in the assembled
`VulnerabilityTreeResult` the tree-wide counts equal the sum over the
successfully queried nodes alone, with `failedQueries` landing unchanged in
the result. -/
theorem queryVulnerabilities_eq (osv : OsvSource) :
    ∀ ns : List DepNode,
      (queryVulnerabilities osv ns).1 = ns.map (fun n => (n, (osv (identOf n)).getD [])) ∧
      (queryVulnerabilities osv ns).2 =
        (ns.filter (fun n => (osv (identOf n)).isNone)).length ∧
      sumCounts (queryVulnerabilities osv ns).1 =
        sumCounts ((queryVulnerabilities osv ns).1.filter
          (fun p => (osv (identOf p.1)).isSome)) := by
  intro ns
  induction ns with
  | nil => exact ⟨rfl, rfl, rfl⟩
  | cons n ns ih =>
    obtain ⟨ih1, ih2, ih3⟩ := ih
    cases hn : osv (identOf n) with
    | none =>
      refine ⟨?_, ?_, ?_⟩
      · simp [queryVulnerabilities, hn, ih1]
      · simp [queryVulnerabilities, hn, ih2, List.filter]
      · simp only [queryVulnerabilities, hn]
        simp only [List.filter_cons, hn, Option.isSome_none, Bool.false_eq_true,
          if_false, sumCounts, List.foldr_cons]
        have : countsOf ([] : List VulnSummary) = {} := rfl
        simp [this, addCounts, sumCounts] at ih3 ⊢
        exact ih3
    | some vs =>
      refine ⟨?_, ?_, ?_⟩
      · simp [queryVulnerabilities, hn, ih1]
      · simp [queryVulnerabilities, hn, ih2, List.filter]
      · simp only [queryVulnerabilities, hn]
        simp only [List.filter_cons, hn, Option.isSome_some, if_true, sumCounts,
          List.foldr_cons]
        simp [sumCounts] at ih3 ⊢
        rw [ih3]

theorem queryVulnerabilities_isolated (osv : OsvSource) (nodes : List DepNode)
    (rootName rootVersion : String) :
    (queryVulnerabilities osv nodes).1 =
      nodes.map (fun n => (n, (osv (identOf n)).getD [])) ∧
    (queryVulnerabilities osv nodes).2 =
      (nodes.filter (fun n => (osv (identOf n)).isNone)).length ∧
    (∀ p ∈ (queryVulnerabilities osv nodes).1,
      osv (identOf p.1) = none → countsOf p.2 = {}) ∧
    (buildResult rootName rootVersion (queryVulnerabilities osv nodes).1
        (queryVulnerabilities osv nodes).2).failedQueries =
      (nodes.filter (fun n => (osv (identOf n)).isNone)).length ∧
    (buildResult rootName rootVersion (queryVulnerabilities osv nodes).1
        (queryVulnerabilities osv nodes).2).totalCounts =
      sumCounts ((queryVulnerabilities osv nodes).1.filter
        (fun p => (osv (identOf p.1)).isSome)) := by
  obtain ⟨k1, k2, k3⟩ := queryVulnerabilities_eq osv nodes
  refine ⟨k1, k2, ?_, k2, ?_⟩
  · intro p hp hno
    rw [k1] at hp
    simp only [List.mem_map] at hp
    obtain ⟨n, _, rfl⟩ := hp
    simp only at hno
    simp [hno]
    rfl
  · exact k3

/-- Closed witness for C3: one failing and one succeeding lookup. -/
theorem queryVulnerabilities_isolated_witness :
    (queryVulnerabilities
        (fun i => if i = ("x", "1.0.0") then none else some [])
        [⟨"x", "1.0.0", .root, []⟩, ⟨"y", "1.0.0", .direct, ["x@1.0.0"]⟩]).2 = 1 := by
  have h := queryVulnerabilities_isolated
    (fun i => if i = ("x", "1.0.0") then none else some [])
    [⟨"x", "1.0.0", .root, []⟩, ⟨"y", "1.0.0", .direct, ["x@1.0.0"]⟩] "x" "1.0.0"
  rw [h.2.1]
  decide

/-! ## Version resolver: parsing and guard lemmas -/

theorem isPrefixOf_mem {p l : List Char} (h : p.isPrefixOf l = true) {c : Char} (hc : c ∈ p) :
    c ∈ l := by
  rw [ List.isPrefixOf_iff_prefix] at h
  exact h.subset hc

theorem contains_mem {l : List Char} {c : Char} (h : l.contains c = true) : c ∈ l := by
  rw [List.contains_iff_exists_mem_beq] at h
  obtain ⟨a, ha, hb⟩ := h
  exact (eq_of_beq hb) ▸ ha

theorem mem_contains {l : List Char} {c : Char} (h : c ∈ l) : l.contains c = true := by
  rw [List.contains_iff_exists_mem_beq]
  exact ⟨c, h, by simp⟩

theorem parseSemver_valid {l : List Char} {v : SemVer} (h : parseSemver l = some v) :
    l.all validSemverChar = true := by
  by_cases hg : l.all validSemverChar = true
  · exact hg
  · rw [parseSemver, if_neg hg] at h
    exact absurd h (by simp)

theorem valid_no_bad {l : List Char} (hv : l.all validSemverChar = true) {c : Char}
    (hb : validSemverChar c = false) : c ∉ l := by
  intro hc
  rw [List.all_eq_true] at hv
  rw [hv c hc] at hb
  exact absurd hb (by simp)

theorem prefix_bad {p l : List Char} {c : Char} (hc : c ∈ p) (hv : l.all validSemverChar = true)
    (hb : validSemverChar c = false) : p.isPrefixOf l = false := by
  by_contra h
  rw [Bool.not_eq_false] at h
  exact valid_no_bad hv hb (isPrefixOf_mem h hc)

/-- A string of valid semver characters triggers none of the resolver's
rejection or alias rules. -/
theorem valid_guards {l : List Char} (hv : l.all validSemverChar = true) :
    looksLikeUrl l = false ∧ "file:".data.isPrefixOf l = false ∧
      "npm:".data.isPrefixOf l = false ∧ l.contains '/' = false := by
  have hcolon : validSemverChar ':' = false := by decide
  have hplus : validSemverChar '+' = false := by decide
  have hslash : validSemverChar '/' = false := by decide
  refine ⟨?_, ?_, ?_, ?_⟩
  · unfold looksLikeUrl
    rw [prefix_bad (by decide : ':' ∈ "http://".data) hv hcolon,
      prefix_bad (by decide : ':' ∈ "https://".data) hv hcolon,
      prefix_bad (by decide : ':' ∈ "git://".data) hv hcolon,
      prefix_bad (by decide : '+' ∈ "git+".data) hv hplus]
    rfl
  · exact prefix_bad (by decide : ':' ∈ "file:".data) hv hcolon
  · exact prefix_bad (by decide : ':' ∈ "npm:".data) hv hcolon
  · by_contra h
    rw [Bool.not_eq_false] at h
    exact valid_no_bad hv hslash (contains_mem h)

/-- A string of valid semver characters is resolved by `resolveCore`. -/
theorem resolveVersion_eq_core_of_valid {s : String}
    (hv : s.data.all validSemverChar = true) (versions : List String) :
    resolveVersion s versions = resolveCore s versions := by
  obtain ⟨g1, g2, g3, g4⟩ := valid_guards hv
  have h4 : '/' ∉ s.data := fun hc => by rw [mem_contains hc] at g4; exact absurd g4 (by simp)
  rw [resolveVersion]
  simp [g1, g2, g3, h4]

/-! ## C5: exact-match short-circuit -/

/-- C5: whenever the range specifier is itself one of the available version
strings (prerelease identifiers included), `resolveVersion` returns it
unchanged — the exact-match rule fires inside `resolveCore` before any
range evaluation. The hypothesis that the string parses as a semantic
version reflects the data model: `availableVersions` is the set of published
versions. -/
theorem resolveVersion_exact_match (v : String) (versions : List String)
    (hval : (parseSemver v.data).isSome = true) (hm : v ∈ versions) :
    resolveVersion v versions = some v := by
  obtain ⟨sv, hsv⟩ := Option.isSome_iff_exists.mp hval
  rw [resolveVersion_eq_core_of_valid (parseSemver_valid hsv)]
  rw [resolveCore, if_pos hm]

/-- Closed witness for C5: the exact prerelease string of the shipped test. -/
theorem resolveVersion_exact_match_witness :
    resolveVersion "2.0.0-beta.1" demoVersions = some "2.0.0-beta.1" :=
  resolveVersion_exact_match "2.0.0-beta.1" demoVersions (by decide) (by decide)

/-! ## pickMax: maximality under precedence -/

theorem pickMax_eq_none {l : List String} (h : pickMax l = none) : l = [] := by
  cases l with
  | nil => rfl
  | cons v vs =>
    rw [pickMax] at h
    revert h
    cases pickMax vs with
    | none => simp
    | some m =>
      by_cases hle : strKey m ≤ strKey v <;> simp [hle]

theorem pickMax_mem {l : List String} {w : String} (h : pickMax l = some w) : w ∈ l := by
  induction l with
  | nil => simp [pickMax] at h
  | cons v vs ih =>
    rw [pickMax] at h
    revert h
    cases hm : pickMax vs with
    | none =>
      intro h
      simp only [Option.some.injEq] at h
      simp [h]
    | some m =>
      by_cases hle : strKey m ≤ strKey v <;> intro h <;>
        simp only [hle, if_true, if_false, Option.some.injEq] at h
      · simp [← h]
      · exact List.mem_cons_of_mem _ (ih (h ▸ hm))

theorem pickMax_max {l : List String} {w : String} (h : pickMax l = some w) :
    ∀ u ∈ l, strKey u ≤ strKey w := by
  induction l generalizing w with
  | nil => simp [pickMax] at h
  | cons v vs ih =>
    rw [pickMax] at h
    revert h
    cases hm : pickMax vs with
    | none =>
      intro h
      simp only [Option.some.injEq] at h
      subst h
      have hnil := pickMax_eq_none hm
      subst hnil
      simp
    | some m =>
      by_cases hle : strKey m ≤ strKey v <;> intro h <;>
        simp only [hle, if_true, if_false, Option.some.injEq] at h <;> subst h
      · intro u hu
        rcases List.mem_cons.mp hu with rfl | hu
        · exact le_refl _
        · exact le_trans (ih hm u hu) hle
      · intro u hu
        rcases List.mem_cons.mp hu with rfl | hu
        · exact le_of_not_le hle
        · exact ih hm u hu

/-! ## parseRange: structure lemmas -/

theorem head?_mem {l : List Char} {c : Char} (h : l.head? = some c) : c ∈ l := by
  cases l with
  | nil => simp at h
  | cons x xs =>
    simp only [List.head?_cons, Option.some.injEq] at h
    simp [h]

theorem take2_shape {l : List Char} {a b : Char} (h : l.take 2 = [a, b]) :
    ∃ t, l = a :: b :: t := by
  cases l with
  | nil => simp at h
  | cons x xs =>
    cases xs with
    | nil => simp at h
    | cons y ys =>
      have hx : x = a ∧ y = b := by simpa using h
      exact ⟨ys, by rw [hx.1, hx.2]⟩

/-- A string that parses as a plain version desugars to its equality
comparator: the exact-match rule and range evaluation agree on members of a
valid version list. -/
theorem parseRange_of_parseSemver {l : List Char} {v : SemVer} (h : parseSemver l = some v) :
    parseRange l = some [⟨.eqc, v⟩] := by
  have hv := parseSemver_valid h
  have hstar : validSemverChar '*' = false := by decide
  have hcaret : validSemverChar '^' = false := by decide
  have htilde : validSemverChar '~' = false := by decide
  have hgt : validSemverChar '>' = false := by decide
  have hlt : validSemverChar '<' = false := by decide
  have heq : validSemverChar '=' = false := by decide
  have h1 : l ≠ ['*'] := by
    intro he
    exact valid_no_bad hv hstar (he ▸ (by decide : '*' ∈ (['*'] : List Char)))
  have hhead : ∀ c : Char, validSemverChar c = false → l.head? ≠ some c := by
    intro c hb hc
    exact valid_no_bad hv hb (head?_mem hc)
  have htake : ∀ a b : Char, validSemverChar a = false → l.take 2 ≠ [a, b] := by
    intro a b hb ht
    obtain ⟨t, rfl⟩ := take2_shape ht
    exact valid_no_bad hv hb (by simp)
  rw [parseRange, if_neg h1, if_neg (hhead _ hcaret), if_neg (hhead _ htilde),
    if_neg (htake _ _ hgt), if_neg (htake _ _ hlt), if_neg (hhead _ hgt),
    if_neg (hhead _ hlt), if_neg (hhead _ heq), h]
  rfl

/-- A parseable range specifier triggers none of the rejection or alias
rules either: its first character is an operator or a version character,
and everything after the operator is version characters. -/
theorem not_mem_of_contains_false {l : List Char} {c : Char} (h : l.contains c = false) :
    c ∉ l := by
  intro hc
  rw [mem_contains hc] at h
  exact absurd h (by simp)

theorem guards_cons {c : Char} {t : List Char} (h1 : c ≠ 'h') (h2 : c ≠ 'g')
    (h3 : c ≠ 'f') (h4 : c ≠ 'n') (h5 : c ≠ '/') (ht : '/' ∉ t) :
    looksLikeUrl (c :: t) = false ∧ "file:".data.isPrefixOf (c :: t) = false ∧
      "npm:".data.isPrefixOf (c :: t) = false ∧ (c :: t).contains '/' = false := by
  have e1 : ('h' == c) = false := beq_eq_false_iff_ne.mpr (Ne.symm h1)
  have e2 : ('g' == c) = false := beq_eq_false_iff_ne.mpr (Ne.symm h2)
  have e3 : ('f' == c) = false := beq_eq_false_iff_ne.mpr (Ne.symm h3)
  have e4 : ('n' == c) = false := beq_eq_false_iff_ne.mpr (Ne.symm h4)
  have hmem : '/' ∉ c :: t := by
    intro hm
    rcases List.mem_cons.mp hm with he | hm
    · exact h5 he.symm
    · exact ht hm
  refine ⟨?_, ?_, ?_, ?_⟩
  · simp [looksLikeUrl, List.isPrefixOf, e1, e2, e3]
  · simp [List.isPrefixOf, e3]
  · simp [List.isPrefixOf, e4]
  · by_contra hcon
    rw [Bool.not_eq_false] at hcon
    exact hmem (contains_mem hcon)

theorem valid_contains_slash {t : List Char} (hv : t.all validSemverChar = true) :
    t.contains '/' = false := by
  by_contra h
  rw [Bool.not_eq_false] at h
  exact valid_no_bad hv (by decide) (contains_mem h)

theorem head?_cons_shape {l : List Char} {c : Char} (h : l.head? = some c) :
    ∃ t, l = c :: t := by
  cases l with
  | nil => simp at h
  | cons x xs =>
    simp only [List.head?_cons, Option.some.injEq] at h
    exact ⟨xs, by rw [h]⟩

theorem parseRange_guards {l : List Char} {cs : List Comparator} (h : parseRange l = some cs) :
    looksLikeUrl l = false ∧ "file:".data.isPrefixOf l = false ∧
      "npm:".data.isPrefixOf l = false ∧ l.contains '/' = false := by
  rw [parseRange] at h
  split_ifs at h with h1 h2 h3 h4 h5 h6 h7 h8
  · subst h1
    exact ⟨by decide, by decide, by decide, by decide⟩
  · obtain ⟨t, rfl⟩ := head?_cons_shape h2
    obtain ⟨v, hv, -⟩ := Option.map_eq_some'.mp h
    rw [List.tail_cons] at hv
    exact guards_cons (by decide) (by decide) (by decide) (by decide) (by decide)
      (not_mem_of_contains_false (valid_contains_slash (parseSemver_valid hv)))
  · obtain ⟨t, rfl⟩ := head?_cons_shape h3
    obtain ⟨v, hv, -⟩ := Option.map_eq_some'.mp h
    rw [List.tail_cons] at hv
    exact guards_cons (by decide) (by decide) (by decide) (by decide) (by decide)
      (not_mem_of_contains_false (valid_contains_slash (parseSemver_valid hv)))
  · obtain ⟨t, rfl⟩ := take2_shape h4
    obtain ⟨v, hv, -⟩ := Option.map_eq_some'.mp h
    rw [List.drop_succ_cons, List.drop_succ_cons, List.drop_zero] at hv
    have ht : '/' ∉ ('=' : Char) :: t := by
      intro hm
      rcases List.mem_cons.mp hm with he | hm
      · exact absurd he (by decide)
      · exact not_mem_of_contains_false (valid_contains_slash (parseSemver_valid hv)) hm
    exact guards_cons (by decide) (by decide) (by decide) (by decide) (by decide) ht
  · obtain ⟨t, rfl⟩ := take2_shape h5
    obtain ⟨v, hv, -⟩ := Option.map_eq_some'.mp h
    rw [List.drop_succ_cons, List.drop_succ_cons, List.drop_zero] at hv
    have ht : '/' ∉ ('=' : Char) :: t := by
      intro hm
      rcases List.mem_cons.mp hm with he | hm
      · exact absurd he (by decide)
      · exact not_mem_of_contains_false (valid_contains_slash (parseSemver_valid hv)) hm
    exact guards_cons (by decide) (by decide) (by decide) (by decide) (by decide) ht
  · obtain ⟨t, rfl⟩ := head?_cons_shape h6
    obtain ⟨v, hv, -⟩ := Option.map_eq_some'.mp h
    rw [List.tail_cons] at hv
    exact guards_cons (by decide) (by decide) (by decide) (by decide) (by decide)
      (not_mem_of_contains_false (valid_contains_slash (parseSemver_valid hv)))
  · obtain ⟨t, rfl⟩ := head?_cons_shape h7
    obtain ⟨v, hv, -⟩ := Option.map_eq_some'.mp h
    rw [List.tail_cons] at hv
    exact guards_cons (by decide) (by decide) (by decide) (by decide) (by decide)
      (not_mem_of_contains_false (valid_contains_slash (parseSemver_valid hv)))
  · obtain ⟨t, rfl⟩ := head?_cons_shape h8
    obtain ⟨v, hv, -⟩ := Option.map_eq_some'.mp h
    rw [List.tail_cons] at hv
    exact guards_cons (by decide) (by decide) (by decide) (by decide) (by decide)
      (not_mem_of_contains_false (valid_contains_slash (parseSemver_valid hv)))
  · obtain ⟨v, hv, -⟩ := Option.map_eq_some'.mp h
    exact valid_guards (parseSemver_valid hv)

/-! ## C1: range resolution is maximal under precedence -/

theorem resolveVersion_eq_core_of_guards {s : String} (versions : List String)
    (g1 : looksLikeUrl s.data = false) (g2 : "file:".data.isPrefixOf s.data = false)
    (g3 : "npm:".data.isPrefixOf s.data = false) (g4 : s.data.contains '/' = false) :
    resolveVersion s versions = resolveCore s versions := by
  have h4 : '/' ∉ s.data := not_mem_of_contains_false g4
  rw [resolveVersion]
  simp [g1, g2, g3, h4]

theorem satStr_elim {cs : List Comparator} {u : String} (h : satStr cs u = true) :
    ∃ su, parseSemver u.data = some su ∧ satisfiesRange cs su = true := by
  revert h
  rw [satStr]
  cases hp : parseSemver u.data with
  | none => intro h; exact absurd h (by simp)
  | some su => intro h; exact ⟨su, rfl, h⟩

theorem satStr_self {s : String} {sv : SemVer} (hsv : parseSemver s.data = some sv) :
    satStr [⟨.eqc, sv⟩] s = true := by
  rw [satStr, hsv]
  simp only [satisfiesRange]
  cases hpre : sv.pre.isEmpty <;>
    simp [cmpHolds, sameTuple, hpre]

/-- C1 (amended): whenever the range specifier parses as `*` or a
semantic-version range, `resolveVersion` returns a member of
`availableVersions` that satisfies the range and is maximal among all
satisfying members under standard semantic-version precedence (`strKey`
order), and returns `none` exactly when no available version satisfies the
range (in particular on the empty list). A prerelease can only be returned
when the range itself names a prerelease on the same `major.minor.patch`
tuple (and, being the precedence maximum, only when no satisfying stable
version outranks it) — this is the semantic-versioning prerelease rule the
spec's design notes defer to. The three end-to-end test expectations hold,
including `^2.0.0-beta.0 ↦ 2.0.0`: the available stable release inside the
range is preferred over the prerelease. The validity hypothesis reflects the
data model: `availableVersions` is a list of published versions. -/
theorem resolveVersion_range_maximal :
    (∀ (s : String) (versions : List String) (cs : List Comparator),
      parseRange s.data = some cs →
      (∀ v ∈ versions, (parseSemver v.data).isSome = true) →
      ((∀ w, resolveVersion s versions = some w →
          w ∈ versions ∧ satStr cs w = true ∧
          ∀ u ∈ versions, satStr cs u = true → strKey u ≤ strKey w) ∧
        (resolveVersion s versions = none → ∀ u ∈ versions, satStr cs u = false) ∧
        (∀ w wv, resolveVersion s versions = some w → parseSemver w.data = some wv →
          wv.pre ≠ [] → ∃ c ∈ cs, c.ver.pre ≠ [] ∧ sameTuple c.ver wv = true))) ∧
    resolveVersion "^1.0.0" demoVersions = some "1.1.0" ∧
    resolveVersion "npm:foo@^1.0.0" demoVersions = some "1.1.0" ∧
    resolveVersion "^2.0.0-beta.0" demoVersions = some "2.0.0" := by
  refine ⟨?_, by decide, by decide, by decide⟩
  intro s versions cs hparse hvalid
  obtain ⟨g1, g2, g3, g4⟩ := parseRange_guards hparse
  have hcore := resolveVersion_eq_core_of_guards versions g1 g2 g3 g4
  by_cases hm : s ∈ versions
  · -- the exact-match branch: the specifier is itself a published version
    have hs : resolveCore s versions = some s := by rw [resolveCore, if_pos hm]
    obtain ⟨sv, hsv⟩ := Option.isSome_iff_exists.mp (hvalid s hm)
    have hco := parseRange_of_parseSemver hsv
    rw [hparse] at hco
    have hcs : cs = [⟨.eqc, sv⟩] := Option.some.inj hco
    subst hcs
    have hmax : ∀ u ∈ versions, satStr [⟨.eqc, sv⟩] u = true → strKey u ≤ strKey s := by
      intro u hu hsat
      obtain ⟨su, hpu, hsr⟩ := satStr_elim hsat
      simp only [satisfiesRange] at hsr
      rw [Bool.and_eq_true] at hsr
      have hall := hsr.1
      rw [List.all_eq_true] at hall
      have he := hall ⟨.eqc, sv⟩ (by simp)
      rw [cmpHolds] at he
      have : su = sv := of_decide_eq_true he
      rw [strKey, hpu, this, strKey, hsv]
    refine ⟨?_, ?_, ?_⟩
    · intro w hw
      rw [hcore, hs] at hw
      obtain rfl := Option.some.inj hw
      exact ⟨hm, satStr_self hsv, hmax⟩
    · intro hnone
      rw [hcore, hs] at hnone
      exact absurd hnone (by simp)
    · intro w wv hw hpw hpre
      rw [hcore, hs] at hw
      obtain rfl := Option.some.inj hw
      rw [hsv] at hpw
      have : wv = sv := (Option.some.inj hpw).symm
      subst this
      exact ⟨⟨.eqc, wv⟩, by simp, hpre, by simp [sameTuple]⟩
  · -- the range branch: maximal satisfying candidate via pickMax
    have hs : resolveCore s versions = pickMax (versions.filter (fun v => satStr cs v)) := by
      rw [resolveCore, if_neg hm, hparse]
    refine ⟨?_, ?_, ?_⟩
    · intro w hw
      rw [hcore, hs] at hw
      have hwf := pickMax_mem hw
      obtain ⟨hwmem, hwsat⟩ := List.mem_filter.mp hwf
      refine ⟨hwmem, hwsat, ?_⟩
      intro u hu hsatu
      exact pickMax_max hw u (List.mem_filter.mpr ⟨hu, hsatu⟩)
    · intro hnone
      rw [hcore, hs] at hnone
      have hnil := pickMax_eq_none hnone
      rw [List.filter_eq_nil_iff] at hnil
      intro u hu
      have := hnil u hu
      simpa using this
    · intro w wv hw hpw hpre
      rw [hcore, hs] at hw
      have hwf := pickMax_mem hw
      obtain ⟨-, hwsat⟩ := List.mem_filter.mp hwf
      obtain ⟨su, hpu, hsr⟩ := satStr_elim hwsat
      rw [hpw] at hpu
      have : su = wv := (Option.some.inj hpu).symm
      subst this
      simp only [satisfiesRange] at hsr
      rw [Bool.and_eq_true] at hsr
      have hgate := hsr.2
      rw [Bool.or_eq_true] at hgate
      rcases hgate with hstable | hany
      · rw [List.isEmpty_iff] at hstable
        exact absurd hstable hpre
      · rw [List.any_eq_true] at hany
        obtain ⟨c, hc, hcp⟩ := hany
        rw [Bool.and_eq_true] at hcp
        refine ⟨c, hc, ?_, hcp.2⟩
        intro hnil
        rw [Bool.not_eq_true'] at hcp
        have := hcp.1
        rw [hnil] at this
        exact absurd this (by simp)

/-- Closed witness for C1: the caret range of the shipped end-to-end test,
with its maximality conclusion instantiated at the returned version. -/
theorem resolveVersion_range_maximal_witness :
    "1.1.0" ∈ demoVersions ∧
      satStr [⟨.gec, ⟨1, 0, 0, []⟩⟩, ⟨.ltc, ⟨2, 0, 0, []⟩⟩] "1.1.0" = true ∧
      ∀ u ∈ demoVersions,
        satStr [⟨.gec, ⟨1, 0, 0, []⟩⟩, ⟨.ltc, ⟨2, 0, 0, []⟩⟩] u = true →
          strKey u ≤ strKey "1.1.0" :=
  (resolveVersion_range_maximal.1 "^1.0.0" demoVersions
      [⟨.gec, ⟨1, 0, 0, []⟩⟩, ⟨.ltc, ⟨2, 0, 0, []⟩⟩] (by decide)
      (by decide)).1 "1.1.0" (by decide)

/-- C1, counterexample to the claim as stated: for the range
`<2.0.0-beta.5` over `["1.0.0", "2.0.0-beta.1"]` the resolver returns the
prerelease `2.0.0-beta.1` even though the stable candidate `1.0.0` satisfies
the range and the range names only the different prerelease `2.0.0-beta.5` —
so "a prerelease is selected only when the range syntax explicitly names
that exact prerelease or no stable candidate satisfies the range" fails;
the correct boundary is the semantic-versioning comparator rule (prerelease
admitted when a comparator carries a prerelease on the same version tuple),
combined with precedence maximality. -/
theorem resolveVersion_prerelease_counterexample :
    resolveVersion "<2.0.0-beta.5" ["1.0.0", "2.0.0-beta.1"] = some "2.0.0-beta.1" ∧
    parseRange "<2.0.0-beta.5".data =
      some [⟨.ltc, ⟨2, 0, 0, [.str ['b', 'e', 't', 'a'], .num 5]⟩⟩] ∧
    satStr [⟨.ltc, ⟨2, 0, 0, [.str ['b', 'e', 't', 'a'], .num 5]⟩⟩] "1.0.0" = true ∧
    parseSemver "1.0.0".data = some ⟨1, 0, 0, []⟩ ∧
    parseSemver "2.0.0-beta.1".data =
      some ⟨2, 0, 0, [.str ['b', 'e', 't', 'a'], .num 1]⟩ ∧
    ([PreId.str ['b', 'e', 't', 'a'], PreId.num 1] ≠ ([] : List PreId)) ∧
    "2.0.0-beta.1" ≠ "2.0.0-beta.5" := by
  refine ⟨by decide, by decide, by decide, by decide, by decide, by decide, by decide⟩

/-! ## C6: npm: aliases -/

theorem lastSplit_none_of_not_mem {c : Char} {l : List Char} (h : c ∉ l) :
    lastSplit c l = none := by
  induction l with
  | nil => rfl
  | cons x xs ih =>
    have hx : x ≠ c := fun he => h (he ▸ List.mem_cons_self x xs)
    have hxs : c ∉ xs := fun hm => h (List.mem_cons_of_mem _ hm)
    rw [lastSplit, ih hxs, if_neg hx]

theorem lastSplit_isSome_of_mem {c : Char} {l : List Char} (h : c ∈ l) :
    (lastSplit c l).isSome = true := by
  induction l with
  | nil => simp at h
  | cons x xs ih =>
    rw [lastSplit]
    cases hs : lastSplit c xs with
    | some p => simp
    | none =>
      have hx : x = c := by
        rcases List.mem_cons.mp h with he | hm
        · exact he.symm
        · have hsem := ih hm
          rw [hs] at hsem
          exact absurd hsem (by simp)
      simp [if_pos hx]

theorem lastSplit_not_mem_post {c : Char} {l pre post : List Char}
    (h : lastSplit c l = some (pre, post)) : c ∉ post := by
  induction l generalizing pre post with
  | nil => simp [lastSplit] at h
  | cons x xs ih =>
    rw [lastSplit] at h
    revert h
    cases hs : lastSplit c xs with
    | some p =>
      intro h
      simp only [Option.some.injEq, Prod.mk.injEq] at h
      obtain ⟨q1, q2⟩ := p
      exact h.2 ▸ ih hs
    | none =>
      by_cases hx : x = c
      · intro h
        simp only [if_pos hx, Option.some.injEq, Prod.mk.injEq] at h
        obtain ⟨h1, h2⟩ := h
        subst h2
        intro hm
        have hsem := lastSplit_isSome_of_mem hm
        rw [hs] at hsem
        exact absurd hsem (by simp)
      · intro h
        simp [if_neg hx] at h

theorem aliasSpec_no_at {rest tail : List Char} (h : aliasSpec rest = some tail) :
    '@' ∉ tail := by
  cases rest with
  | nil => simp [aliasSpec] at h
  | cons c rem =>
    rw [aliasSpec] at h
    split at h
    next name tl heq =>
      split at h
      · obtain rfl := Option.some.inj h
        exact lastSplit_not_mem_post heq
      · exact absurd h (by simp)
    next heq => exact absurd h (by simp)

theorem aliasSpec_none_of_no_at {rest : List Char} (h : '@' ∉ rest) :
    aliasSpec rest = none := by
  cases rest with
  | nil => rfl
  | cons c rem =>
    have hc : c ≠ '@' := fun he => h (he ▸ List.mem_cons_self c rem)
    rw [aliasSpec, if_neg hc, lastSplit_none_of_not_mem h]

theorem resolveVersion_npm_unfold {s : String} (versions : List String)
    (hnpm : "npm:".data.isPrefixOf s.data = true) :
    resolveVersion s versions =
      match aliasSpec (s.data.drop 4) with
      | some tail => resolveCore (String.mk tail) versions
      | none => none := by
  obtain ⟨t, ht⟩ := List.isPrefixOf_iff_prefix.mp hnpm
  have hdata : s.data = 'n' :: 'p' :: 'm' :: ':' :: t := by rw [← ht]; rfl
  have hurl : looksLikeUrl s.data = false := by
    rw [hdata]; simp [looksLikeUrl, List.isPrefixOf]
  have hfile : "file:".data.isPrefixOf s.data = false := by
    rw [hdata]; simp [List.isPrefixOf]
  rw [resolveVersion]
  simp [hurl, hfile, hnpm]

theorem resolveCore_eq_resolveVersion {tail : List Char} (versions : List String)
    (hvalid : ∀ v ∈ versions, (parseSemver v.data).isSome = true)
    (hat : '@' ∉ tail) :
    resolveCore (String.mk tail) versions = resolveVersion (String.mk tail) versions := by
  have hdata : (String.mk tail).data = tail := rfl
  have hcore_none : (looksLikeUrl tail = true ∨ "file:".data.isPrefixOf tail = true ∨
      "npm:".data.isPrefixOf tail = true ∨ tail.contains '/' = true) →
      resolveCore (String.mk tail) versions = none := by
    intro htr
    have hnm : (String.mk tail) ∉ versions := by
      intro hmem
      obtain ⟨sv, hsv⟩ := Option.isSome_iff_exists.mp (hvalid _ hmem)
      have hsv' : parseSemver tail = some sv := hsv
      obtain ⟨g1, g2, g3, g4⟩ := valid_guards (parseSemver_valid hsv')
      rcases htr with htr | htr | htr | htr <;> [rw [g1] at htr; rw [g2] at htr;
        rw [g3] at htr; rw [g4] at htr] <;> exact absurd htr (by simp)
    have hpr : parseRange tail = none := by
      cases hpc : parseRange tail with
      | none => rfl
      | some cs =>
        obtain ⟨g1, g2, g3, g4⟩ := parseRange_guards hpc
        rcases htr with htr | htr | htr | htr <;> [rw [g1] at htr; rw [g2] at htr;
          rw [g3] at htr; rw [g4] at htr] <;> exact absurd htr (by simp)
    rw [resolveCore, if_neg hnm]
    simp only [hdata, hpr]
  by_cases t1 : (looksLikeUrl tail || "file:".data.isPrefixOf tail) = true
  · have hrhs : resolveVersion (String.mk tail) versions = none := by
      rw [resolveVersion]
      simp only [hdata, t1, if_true]
    rw [hrhs]
    rw [Bool.or_eq_true] at t1
    rcases t1 with htr | htr
    · exact hcore_none (Or.inl htr)
    · exact hcore_none (Or.inr (Or.inl htr))
  · rw [Bool.or_eq_true, not_or] at t1
    obtain ⟨t1a, t1b⟩ := t1
    rw [Bool.not_eq_true] at t1a t1b
    by_cases t2 : "npm:".data.isPrefixOf tail = true
    · have halias : aliasSpec (tail.drop 4) = none :=
        aliasSpec_none_of_no_at (fun hm => hat (List.drop_subset _ _ hm))
      have hrhs : resolveVersion (String.mk tail) versions = none := by
        rw [resolveVersion_npm_unfold versions t2]
        simp only [hdata, halias]
      rw [hrhs]
      exact hcore_none (Or.inr (Or.inr (Or.inl t2)))
    · rw [Bool.not_eq_true] at t2
      by_cases t3 : (tail.contains '/' && !("@".data.isPrefixOf tail)) = true
      · have t3' := t3
        rw [Bool.and_eq_true] at t3'
        have t3c : (tail.contains '/' && !(['@'] : List Char).isPrefixOf tail) = true := t3
        have hrhs : resolveVersion (String.mk tail) versions = none := by
          rw [resolveVersion]
          simp only [hdata, t1a, t1b, t2]
          simp only [Bool.or_self, Bool.false_eq_true, if_false]
          rw [t3c]
          simp
        rw [hrhs]
        exact hcore_none (Or.inr (Or.inr (Or.inr t3'.1)))
      · rw [Bool.not_eq_true] at t3
        have t3c : (tail.contains '/' && !(['@'] : List Char).isPrefixOf tail) = false := t3
        rw [resolveVersion]
        simp only [hdata, t1a, t1b, t2]
        simp only [Bool.or_self, Bool.false_eq_true, if_false]
        rw [t3c]
        simp

/-- C6: a well-formed alias `npm:<name>@<spec>` or `npm:@scope/<name>@<spec>`
(one whose trailing spec the alias parser extracts) resolves exactly as the
trailing spec alone does, and every malformed alias (bare `npm:`, or missing
`@<spec>`) resolves to `none`. The validity hypothesis again reflects that
`availableVersions` holds published versions. -/
theorem resolveVersion_alias (s : String) (versions : List String)
    (hvalid : ∀ v ∈ versions, (parseSemver v.data).isSome = true) :
    (∀ tail, "npm:".data.isPrefixOf s.data = true →
        aliasSpec (s.data.drop 4) = some tail →
        resolveVersion s versions = resolveVersion (String.mk tail) versions) ∧
    ("npm:".data.isPrefixOf s.data = true → aliasSpec (s.data.drop 4) = none →
        resolveVersion s versions = none) := by
  refine ⟨?_, ?_⟩
  · intro tail hnpm halias
    rw [resolveVersion_npm_unfold versions hnpm, halias]
    exact resolveCore_eq_resolveVersion versions hvalid (aliasSpec_no_at halias)
  · intro hnpm halias
    rw [resolveVersion_npm_unfold versions hnpm, halias]

/-- Closed witness for C6: the shipped alias test case, together with a
malformed alias. -/
theorem resolveVersion_alias_witness :
    resolveVersion "npm:foo@^1.0.0" demoVersions = resolveVersion "^1.0.0" demoVersions ∧
    resolveVersion "npm:pkg" demoVersions = none :=
  ⟨(resolveVersion_alias "npm:foo@^1.0.0" demoVersions (by decide)).1
      "^1.0.0".data (by decide) (by decide),
    (resolveVersion_alias "npm:pkg" demoVersions (by decide)).2 (by decide) (by decide)⟩

/-! ## C2: the graph walker terminates and deduplicates -/

theorem expandDeps_len (reg : Registry) (parent : DepNode) :
    ∀ (deps : List (String × String)) (rem : List Ident),
      (expandDeps reg parent deps rem).2.length + (expandDeps reg parent deps rem).1.length
        = rem.length := by
  intro deps
  induction deps with
  | nil => intro rem; rfl
  | cons d rest ih =>
    intro rem
    obtain ⟨dn, spec⟩ := d
    rw [expandDeps]
    cases hlv : lookupVersions reg dn with
    | none => dsimp only; exact ih rem
    | some vl =>
      dsimp only
      cases hrv : resolveVersion spec (vl.map Prod.fst) with
      | none => dsimp only; exact ih rem
      | some ver =>
        dsimp only
        cases hlm : lookupManifest reg dn ver with
        | none => dsimp only; exact ih rem
        | some m =>
          dsimp only
          by_cases hp : matchesPlatform m = true
          · rw [if_pos hp]
            by_cases hmem : (dn, ver) ∈ rem
            · rw [if_pos hmem]
              dsimp only
              simp only [List.length_cons]
              have hlen := List.length_erase_of_mem hmem
              have hrec := ih (rem.erase (dn, ver))
              have hpos : 1 ≤ rem.length := List.length_pos.mpr (by
                intro he
                rw [he] at hmem
                simp at hmem)
              omega
            · rw [if_neg hmem]
              exact ih rem
          · rw [if_neg hp]
            exact ih rem

theorem expandDeps_props (reg : Registry) (parent : DepNode) :
    ∀ (deps : List (String × String)) (rem : List Ident), rem.Nodup →
      (((expandDeps reg parent deps rem).1.map identOf).Nodup ∧
        (expandDeps reg parent deps rem).2.Nodup ∧
        (∀ i ∈ (expandDeps reg parent deps rem).1.map identOf,
          i ∈ rem ∧ i ∉ (expandDeps reg parent deps rem).2) ∧
        (∀ i ∈ (expandDeps reg parent deps rem).2, i ∈ rem)) := by
  intro deps
  induction deps with
  | nil =>
    intro rem hnd
    exact ⟨by simp [expandDeps], hnd, by simp [expandDeps], fun i hi => hi⟩
  | cons d rest ih =>
    intro rem hnd
    obtain ⟨dn, spec⟩ := d
    rw [expandDeps]
    cases hlv : lookupVersions reg dn with
    | none => dsimp only; exact ih rem hnd
    | some vl =>
      dsimp only
      cases hrv : resolveVersion spec (vl.map Prod.fst) with
      | none => dsimp only; exact ih rem hnd
      | some ver =>
        dsimp only
        cases hlm : lookupManifest reg dn ver with
        | none => dsimp only; exact ih rem hnd
        | some m =>
          dsimp only
          by_cases hp : matchesPlatform m = true
          · rw [if_pos hp]
            by_cases hmem : (dn, ver) ∈ rem
            · rw [if_pos hmem]
              dsimp only
              obtain ⟨r1, r2, r3, r4⟩ := ih (rem.erase (dn, ver)) (hnd.erase _)
              have hnotin : (dn, ver) ∉ rem.erase (dn, ver) := hnd.not_mem_erase
              refine ⟨?_, r2, ?_, ?_⟩
              · simp only [List.map_cons, List.nodup_cons]
                refine ⟨?_, r1⟩
                intro hin
                exact hnotin ((r3 _ hin).1)
              · intro i hi
                simp only [List.map_cons, List.mem_cons] at hi
                rcases hi with rfl | hi
                · refine ⟨hmem, ?_⟩
                  intro hin
                  exact hnotin (r4 _ hin)
                · obtain ⟨hi1, hi2⟩ := r3 _ hi
                  exact ⟨List.erase_subset _ _ hi1, hi2⟩
              · intro i hi
                exact List.erase_subset _ _ (r4 _ hi)
            · rw [if_neg hmem]
              exact ih rem hnd
          · rw [if_neg hp]
            exact ih rem hnd

theorem walk_nil (reg : Registry) (fuel : Nat) (rem : List Ident) (acc : List DepNode) :
    walk reg fuel [] rem acc = acc := by
  cases fuel <;> rfl

theorem walk_nodup (reg : Registry) :
    ∀ (fuel : Nat) (qs : List DepNode) (rem : List Ident) (acc : List DepNode),
      rem.Nodup → (acc.map identOf).Nodup → (∀ i ∈ acc.map identOf, i ∉ rem) →
      ((walk reg fuel qs rem acc).map identOf).Nodup := by
  intro fuel
  induction fuel with
  | zero => intro qs rem acc _ hacc _; exact hacc
  | succ f ih =>
    intro qs rem acc hrem hacc hdisj
    cases qs with
    | nil => exact hacc
    | cons node queue =>
      rw [walk]
      cases hlm : lookupManifest reg node.name node.version with
      | none => dsimp only; exact ih queue rem acc hrem hacc hdisj
      | some m =>
        dsimp only
        obtain ⟨r1, r2, r3, r4⟩ := expandDeps_props reg node m.deps rem hrem
        apply ih
        · exact r2
        · rw [List.map_append]
          refine List.Nodup.append hacc r1 ?_
          intro i hi1 hi2
          exact hdisj i hi1 ((r3 i hi2).1)
        · intro i hi
          rw [List.map_append, List.mem_append] at hi
          rcases hi with hi | hi
          · intro hin
            exact hdisj i hi (r4 i hin)
          · exact (r3 i hi).2

theorem walk_fuel_stable (reg : Registry) :
    ∀ (fuel extra : Nat) (qs : List DepNode) (rem : List Ident) (acc : List DepNode),
      qs.length + rem.length ≤ fuel →
      walk reg (fuel + extra) qs rem acc = walk reg fuel qs rem acc := by
  intro fuel
  induction fuel with
  | zero =>
    intro extra qs rem acc hb
    have hq : qs = [] := by
      cases qs with
      | nil => rfl
      | cons x xs => simp at hb
    subst hq
    rw [walk_nil, walk_nil]
  | succ f ih =>
    intro extra qs rem acc hb
    have harith : f + 1 + extra = (f + extra) + 1 := by omega
    rw [harith]
    cases qs with
    | nil => rw [walk_nil, walk_nil]
    | cons node queue =>
      rw [walk, walk]
      cases hlm : lookupManifest reg node.name node.version with
      | none =>
        dsimp only
        apply ih
        simp only [List.length_cons] at hb
        omega
      | some m =>
        dsimp only
        apply ih
        have hlen := expandDeps_len reg node m.deps rem
        simp only [List.length_cons] at hb
        simp only [List.length_append]
        omega

/-- C2: the dependency-graph traversal always terminates — `walk` consumes
one unit of the measure `queue.length + remaining.length` per step, so the
fuel `resolveTree` supplies is sufficient and any surplus fuel leaves the
result unchanged — and every distinct identity `(name, version)` appears at
most once in the returned node set (first discovery wins, so children are
expanded exactly once per identity). On the concrete cyclic registry
(a ↔ b) the traversal terminates with each node exactly once, and on the
diamond registry (r → a, b; a, b → c) the node `c` appears once, carrying
the path through `a`, its first discoverer. -/
theorem resolveTree_dedup_and_terminates :
    (∀ (reg : Registry) (rootName rootVersion : String) (nodes : List DepNode),
      resolveTree reg rootName rootVersion = some nodes → (nodes.map identOf).Nodup) ∧
    (∀ (reg : Registry) (fuel extra : Nat) (qs : List DepNode) (rem : List Ident)
        (acc : List DepNode),
      qs.length + rem.length ≤ fuel →
      walk reg (fuel + extra) qs rem acc = walk reg fuel qs rem acc) ∧
    resolveTree cycReg "a" "1.0.0" =
      some [⟨"a", "1.0.0", .root, []⟩, ⟨"b", "1.0.0", .direct, ["a@1.0.0"]⟩] ∧
    resolveTree diamondReg "r" "1.0.0" =
      some [⟨"r", "1.0.0", .root, []⟩,
        ⟨"a", "1.0.0", .direct, ["r@1.0.0"]⟩,
        ⟨"b", "1.0.0", .direct, ["r@1.0.0"]⟩,
        ⟨"c", "1.0.0", .transitive, ["r@1.0.0", "a@1.0.0"]⟩] := by
  refine ⟨?_, walk_fuel_stable, by decide, by decide⟩
  intro reg rootName rootVersion nodes h
  rw [resolveTree] at h
  revert h
  cases hlm : lookupManifest reg rootName rootVersion with
  | none => intro h; exact absurd h (by simp)
  | some m =>
    intro h
    obtain rfl := Option.some.inj h
    apply walk_nodup
    · exact (List.nodup_dedup _).erase _
    · simp
    · intro i hi
      simp only [List.map_cons, List.map_nil, List.mem_singleton] at hi
      subst hi
      exact (List.nodup_dedup _).not_mem_erase

/-- Closed witness for C2: the cyclic registry's result has pairwise
distinct identities. -/
theorem resolveTree_dedup_and_terminates_witness :
    (([⟨"a", "1.0.0", .root, []⟩,
        ⟨"b", "1.0.0", .direct, ["a@1.0.0"]⟩] : List DepNode).map identOf).Nodup :=
  resolveTree_dedup_and_terminates.1 cycReg "a" "1.0.0" _ (by decide)

/-! ## C9: root failures are fatal, non-root failures are recovered -/

/-- C9: a metadata-fetch failure for the root fails the whole analysis (the
caller gets the error `none`); when the root's manifest is available the
caller always receives a complete `VulnerabilityTreeResult` whose
`failedQueries` counts exactly the vulnerability-source failures over the
resolved nodes (so a metadata-fetch failure for a non-root node never
contributes to `failedQueries`); and a non-root metadata-fetch failure is
recovered locally — the walker drops the edge and continues with the
remaining edges. -/
theorem analyzeTree_error_handling :
    (∀ (reg : Registry) (osv : OsvSource) (n v : String),
      lookupManifest reg n v = none → analyzeTree reg osv n v = none) ∧
    (∀ (reg : Registry) (osv : OsvSource) (n v : String) (m : VersionManifest),
      lookupManifest reg n v = some m →
      ∃ r nodes, analyzeTree reg osv n v = some r ∧ resolveTree reg n v = some nodes ∧
        r.failedQueries = (nodes.filter (fun nd => (osv (identOf nd)).isNone)).length ∧
        r.totalPackages = nodes.length) ∧
    (∀ (reg : Registry) (parent : DepNode) (dn spec : String)
        (rest : List (String × String)) (rem : List Ident),
      lookupVersions reg dn = none →
      expandDeps reg parent ((dn, spec) :: rest) rem = expandDeps reg parent rest rem) := by
  refine ⟨?_, ?_, ?_⟩
  · intro reg osv n v h
    rw [analyzeTree, resolveTree, h]
  · intro reg osv n v m h
    have hrt : resolveTree reg n v =
        some (walk reg (1 + (((identsOf reg).dedup).erase (n, v)).length)
          [⟨n, v, .root, []⟩] (((identsOf reg).dedup).erase (n, v)) [⟨n, v, .root, []⟩]) := by
      rw [resolveTree, h]
    generalize hN : walk reg (1 + (((identsOf reg).dedup).erase (n, v)).length)
      [⟨n, v, .root, []⟩] (((identsOf reg).dedup).erase (n, v)) [⟨n, v, .root, []⟩] = N at hrt
    have han : analyzeTree reg osv n v =
        some (buildResult n v (queryVulnerabilities osv N).1
          (queryVulnerabilities osv N).2) := by
      rw [analyzeTree, hrt]
    obtain ⟨k1, k2, -⟩ := queryVulnerabilities_eq osv N
    refine ⟨_, N, han, hrt, ?_, ?_⟩
    · exact k2
    · show (queryVulnerabilities osv N).1.length = N.length
      rw [k1, List.length_map]
  · intro reg parent dn spec rest rem h
    rw [expandDeps, h]

/-- Closed witness for C9: on the empty registry the root fetch fails and
the whole analysis errors out. -/
theorem analyzeTree_error_handling_witness :
    analyzeTree ⟨[]⟩ (fun _ => some []) "a" "1.0.0" = none :=
  analyzeTree_error_handling.1 ⟨[]⟩ (fun _ => some []) "a" "1.0.0" (by decide)

end Npmx
